import Mathlib

/-!
Shallow embedding of the DR-Arena hierarchical web-content tree subsystem:
the tree data model (src/web_tree/models/tree_models.py), the crawler
(src/web_tree/utils/crawler_utils.py), the expander (src/web_tree/expand_tree.py)
and the navigation controller (src/core/evolvement_loop.py).

Network I/O (HTTP fetch + HTML parse + link extraction) is modelled by an
oracle `CrawlEnv.fetch : String → Except String PageData`: an `.error e`
models a failed fetch with error message `e`, an `.ok pd` models a parsed
page with extracted metadata, content and link contexts.  `random.sample`
is modelled by the oracle function `CrawlEnv.sample`; `random.choice l` is
modelled by indexing `l` at `pick % l.length` for an arbitrary `pick : Nat`.
-/

/-- LinkContext from tree_models.py: context information around a hyperlink. -/
structure LinkContext where
  url : String
  anchor_text : String
  surrounding_text : String
  relationship : Option String := none
deriving DecidableEq, Repr, Inhabited

/-- WebsiteNode from tree_models.py: a node in the website tree. -/
structure WebsiteNode where
  url : String
  domain : String
  title : Option String := none
  description : Option String := none
  content : Option String := none
  crawled : Bool := false
  depth : Nat := 0
  children : List WebsiteNode
  link_contexts : List LinkContext := []
  error : Option String := none
  relationship_cluster : Option String := none
deriving Repr, Inhabited

/-- The parsed result of a successful page fetch: extracted metadata,
cleaned content and outgoing link contexts. -/
structure PageData where
  title : Option String := none
  description : Option String := none
  content : Option String := none
  links : List LinkContext := []
deriving DecidableEq, Repr, Inhabited

/-- Environment for the crawler: the network/parse oracle and the random
sampler (`random.sample(links, k)` is `sample links k`). -/
structure CrawlEnv where
  fetch : String → Except String PageData
  sample : List LinkContext → Nat → List LinkContext
  randomSampling : Bool := true

/-- Crawler `_normalize_url`: strip the fragment portion of the URL. -/
def normalizeUrl (u : String) : String :=
  (u.splitOn "#").headD u

/-- Crawler `_extract_domain`: the netloc of the URL. -/
def extractDomain (u : String) : String :=
  match u.splitOn "://" with
  | _ :: rest :: _ => ((rest.splitOn "/").headD "")
  | _ => ""

/-- Python `set.add` on a set modelled as a list: append if absent. -/
def insertUrl (u : String) (s : List String) : List String :=
  if u ∈ s then s else u :: s

/-- Python `str.strip()`: drop whitespace from both ends (realised over the
character list so that it evaluates). -/
def pyStrip (s : String) : String :=
  String.mk ((s.data.dropWhile Char.isWhitespace).reverse.dropWhile
    Char.isWhitespace).reverse

theorem sizeOf_lt_of_mem_children {c n : WebsiteNode} (h : c ∈ n.children) :
    sizeOf c < sizeOf n := by
  have h1 := List.sizeOf_lt_of_mem h
  cases n with
  | mk url domain title description content crawled depth children lc err rc =>
    simp only [WebsiteNode.mk.sizeOf_spec]
    simp only at h1
    omega

mutual

/-- Boolean structural equality for website nodes (field-by-field, recursive
through `children`). -/
def nodeBEq : WebsiteNode → WebsiteNode → Bool
  | ⟨u1, d1, t1, de1, co1, cr1, dp1, ch1, lc1, e1, r1⟩,
    ⟨u2, d2, t2, de2, co2, cr2, dp2, ch2, lc2, e2, r2⟩ =>
    u1 == u2 && d1 == d2 && t1 == t2 && de1 == de2 && co1 == co2 &&
    cr1 == cr2 && dp1 == dp2 && nodeListBEq ch1 ch2 && lc1 == lc2 &&
    e1 == e2 && r1 == r2

/-- Boolean structural equality for lists of website nodes. -/
def nodeListBEq : List WebsiteNode → List WebsiteNode → Bool
  | [], [] => true
  | a :: as, b :: bs => nodeBEq a b && nodeListBEq as bs
  | _, _ => false

end

/-- Structural induction over a website tree through its `children` list. -/
theorem WebsiteNode.inductionOn {motive : WebsiteNode → Prop}
    (step : ∀ n : WebsiteNode, (∀ c ∈ n.children, motive c) → motive n) :
    ∀ n, motive n := by
  intro n
  have h : ∀ c ∈ n.children, motive c := by
    intro c hc
    exact WebsiteNode.inductionOn step c
  exact step n h
termination_by n => sizeOf n
decreasing_by exact sizeOf_lt_of_mem_children hc

theorem nodeBEq_iff : ∀ a b : WebsiteNode, nodeBEq a b = true ↔ a = b := by
  have key : ∀ a : WebsiteNode, (∀ b, nodeBEq a b = true ↔ a = b) := by
    intro a
    induction a using WebsiteNode.inductionOn with
    | step a ih =>
      obtain ⟨u1, d1, t1, de1, co1, cr1, dp1, ch1, lc1, e1, r1⟩ := a
      intro b
      obtain ⟨u2, d2, t2, de2, co2, cr2, dp2, ch2, lc2, e2, r2⟩ := b
      simp only [nodeBEq, Bool.and_eq_true, beq_iff_eq, WebsiteNode.mk.injEq]
      have hch : nodeListBEq ch1 ch2 = true ↔ ch1 = ch2 := by
        simp only at ih
        clear * - ih
        induction ch1 generalizing ch2 with
        | nil => cases ch2 <;> simp [nodeListBEq]
        | cons x xs ihx =>
          cases ch2 with
          | nil => simp [nodeListBEq]
          | cons y ys =>
            simp only [nodeListBEq, Bool.and_eq_true, List.cons.injEq]
            rw [ih x (by simp), ihx (fun c hc => ih c (by simp [hc]))]
      rw [hch]
      tauto
  intro a b
  exact key a b

instance : DecidableEq WebsiteNode := fun a b =>
  decidable_of_iff (nodeBEq a b = true) (nodeBEq_iff a b)

mutual

/-- The pre-order listing of a tree: the node itself, then the pre-order
listing of each child, left to right. -/
def preorderNodes : WebsiteNode → List WebsiteNode
  | ⟨u, d, t, de, co, cr, dp, ch, lc, er, rc⟩ =>
    ⟨u, d, t, de, co, cr, dp, ch, lc, er, rc⟩ :: preorderList ch

/-- The pre-order listing of a forest, left to right. -/
def preorderList : List WebsiteNode → List WebsiteNode
  | [] => []
  | c :: rest => preorderNodes c ++ preorderList rest

end

theorem preorderNodes_eq (n : WebsiteNode) :
    preorderNodes n = n :: preorderList n.children := by
  cases n
  rfl

theorem preorderList_eq (l : List WebsiteNode) :
    preorderList l = (l.map preorderNodes).flatten := by
  induction l with
  | nil => rfl
  | cons c rest ih => simp [preorderList, ih]

mutual

/-- count_nodes from expand_tree.py: number of nodes in the subtree. -/
def countNodes : WebsiteNode → Nat
  | ⟨u, d, t, de, co, cr, dp, ch, lc, er, rc⟩ => 1 + countList ch

/-- Total node count of a forest. -/
def countList : List WebsiteNode → Nat
  | [] => 0
  | c :: rest => countNodes c + countList rest

end

theorem countNodes_eq (n : WebsiteNode) :
    countNodes n = 1 + countList n.children := by
  cases n
  rfl

mutual

/-- find_max_depth from expand_tree.py: for a leaf, its own depth field;
otherwise the maximum over the children subtrees (Python `max` of a
nonempty list, realised over `Nat` as a fold from 0). -/
def findMaxDepth : WebsiteNode → Nat
  | ⟨u, d, t, de, co, cr, dp, ch, lc, er, rc⟩ =>
    if ch.isEmpty then dp else (findMaxDepthList ch).foldl max 0

/-- The list of subtree maximum depths of a forest. -/
def findMaxDepthList : List WebsiteNode → List Nat
  | [] => []
  | c :: rest => findMaxDepth c :: findMaxDepthList rest

end

/-- Depth invariant of a tree relative to a bound `d`: no node exceeds
depth `d`, and every child's depth field is its parent's plus one. -/
def depthInv (d : Nat) (n : WebsiteNode) : Prop :=
  n.depth ≤ d ∧ ∀ c ∈ n.children, c.depth = n.depth + 1 ∧ depthInv d c
termination_by sizeOf n
decreasing_by exact sizeOf_lt_of_mem_children (by assumption)

mutual

/-- _crawl_node from crawler_utils.py, instrumented with an explicit fetch
log (third component): skip already-visited URLs without fetching, add the
URL to the visited set before fetching, on fetch failure record the error
and stop, otherwise populate metadata/content; below `maxDepth`, store the
extracted link contexts, keep those not yet visited, select up to
`maxChildren` of them (random sample when more are available and random
sampling is on, otherwise an in-order slice) and recurse into each at
`depth + 1`.  The `fuel` argument bounds the recursion; `crawlTree` passes
enough fuel that it never runs out. -/
def crawlNode (env : CrawlEnv) (maxDepth maxChildren : Nat) :
    Nat → WebsiteNode → List String → List String →
    WebsiteNode × List String × List String
  | 0, node, visited, fetched => (node, visited, fetched)
  | fuel + 1, node, visited, fetched =>
    if node.url ∈ visited then
      ({ node with crawled := false, error := some "Already visited" }, visited, fetched)
    else
      let visited1 := node.url :: visited
      let fetched1 := fetched ++ [node.url]
      match env.fetch node.url with
      | .error e =>
        ({ node with crawled := false,
                     error := some (if e = "" then "Unknown error" else e) },
         visited1, fetched1)
      | .ok pd =>
        let node1 := { node with title := pd.title, description := pd.description,
                                 crawled := true, content := pd.content }
        if maxDepth ≤ node.depth then (node1, visited1, fetched1)
        else
          let node2 := { node1 with link_contexts := pd.links }
          let available := pd.links.filter (fun l => !(visited1.contains l.url))
          let selected :=
            if env.randomSampling && decide (maxChildren < available.length) then
              env.sample available maxChildren
            else available.take maxChildren
          let r := crawlKids env maxDepth maxChildren fuel node.depth selected visited1 fetched1
          ({ node2 with children := node2.children ++ r.1 }, r.2.1, r.2.2)

/-- The sibling loop of _crawl_node: create each selected child at
`depth + 1` with the link's relationship and recurse into it, threading the
visited set and the fetch log left to right. -/
def crawlKids (env : CrawlEnv) (maxDepth maxChildren : Nat) :
    Nat → Nat → List LinkContext → List String → List String →
    List WebsiteNode × List String × List String
  | _, _, [], visited, fetched => ([], visited, fetched)
  | fuel, depth, l :: rest, visited, fetched =>
    let child : WebsiteNode :=
      { url := l.url, domain := extractDomain l.url, depth := depth + 1,
        children := [], relationship_cluster := l.relationship }
    let r1 := crawlNode env maxDepth maxChildren fuel child visited fetched
    let r2 := crawlKids env maxDepth maxChildren fuel depth rest r1.2.1 r1.2.2
    (r1.1 :: r2.1, r2.2)

end

/-- crawl_tree from crawler_utils.py: build the root node at depth 0 from
the normalized root URL and crawl it recursively starting from an empty
visited set.  The result is the root node of the built tree. -/
def crawlTree (env : CrawlEnv) (rootUrl : String) (maxDepth maxChildren : Nat) :
    WebsiteNode :=
  let u := normalizeUrl rootUrl
  (crawlNode env maxDepth maxChildren (maxDepth + 1)
    { url := u, domain := extractDomain u, depth := 0, children := [] } [] []).1

/-- The fetch log of a whole crawl_tree run: the URLs actually fetched, in
order of fetching. -/
def crawlTreeFetchLog (env : CrawlEnv) (rootUrl : String) (maxDepth maxChildren : Nat) :
    List String :=
  let u := normalizeUrl rootUrl
  (crawlNode env maxDepth maxChildren (maxDepth + 1)
    { url := u, domain := extractDomain u, depth := 0, children := [] } [] []).2.2

theorem sizeOf_children_lt (n : WebsiteNode) : sizeOf n.children < sizeOf n := by
  cases n with
  | mk u d t de co cr dp ch lc er rc =>
    simp only [WebsiteNode.mk.sizeOf_spec]
    omega

mutual

/-- find_node_by_url from expand_tree.py: the node itself if its URL
matches, otherwise the first match found among the children, left to right,
recursively. -/
def findNodeByUrl : WebsiteNode → String → Option WebsiteNode
  | ⟨u, d, t, de, co, cr, dp, ch, lc, er, rc⟩, url =>
    if u = url then some ⟨u, d, t, de, co, cr, dp, ch, lc, er, rc⟩
    else findNodeByUrlList ch url

/-- The loop of find_node_by_url over a list of children. -/
def findNodeByUrlList : List WebsiteNode → String → Option WebsiteNode
  | [], _ => none
  | c :: rest, url =>
    match findNodeByUrl c url with
    | some r => some r
    | none => findNodeByUrlList rest url

end

theorem findNodeByUrl_eq (root : WebsiteNode) (url : String) :
    findNodeByUrl root url =
      if root.url = url then some root else findNodeByUrlList root.children url := by
  cases root
  rfl

mutual

/-- find_path from _auto_expand_tree in evolvement_loop.py: the root-to-node
path of the first node (in pre-order) whose URL matches, as a list of nodes
starting at the root. -/
def findPath : WebsiteNode → String → Option (List WebsiteNode)
  | ⟨u, d, t, de, co, cr, dp, ch, lc, er, rc⟩, url =>
    if u = url then some [⟨u, d, t, de, co, cr, dp, ch, lc, er, rc⟩]
    else
      match findPathList ch url with
      | some p => some (⟨u, d, t, de, co, cr, dp, ch, lc, er, rc⟩ :: p)
      | none => none

/-- The loop of find_path over a list of children. -/
def findPathList : List WebsiteNode → String → Option (List WebsiteNode)
  | [], _ => none
  | c :: rest, url =>
    match findPath c url with
    | some p => some p
    | none => findPathList rest url

end

theorem findPath_eq (root : WebsiteNode) (url : String) :
    findPath root url =
      if root.url = url then some [root]
      else
        match findPathList root.children url with
        | some p => some (root :: p)
        | none => none := by
  cases root
  rfl

/-- The creation-and-fetch of one new child, shared by expand_width and the
inner loop of expand_depth in expand_tree.py: build a node at the parent's
depth plus one carrying the link's relationship; on fetch failure mark it
as an uncrawled error leaf, on success populate metadata, content and link
contexts. -/
def attemptChild (env : CrawlEnv) (depth : Nat) (l : LinkContext) : WebsiteNode :=
  match env.fetch l.url with
  | .error e =>
    { url := l.url, domain := extractDomain l.url, depth := depth + 1,
      children := [], relationship_cluster := l.relationship,
      crawled := false, error := some (if e = "" then "Unknown error" else e) }
  | .ok pd =>
    { url := l.url, domain := extractDomain l.url, depth := depth + 1,
      children := [], relationship_cluster := l.relationship,
      crawled := true, title := pd.title, description := pd.description,
      content := pd.content, link_contexts := pd.links }

/-- The child-adding loop shared by expand_width and expand_depth: for each
link, ensure its URL is marked visited (Python discards then re-adds it),
fetch it as a new child, and collect the children, the new URLs and the
updated visited set. -/
def widthLoop (env : CrawlEnv) (depth : Nat) :
    List LinkContext → List String →
    List WebsiteNode × List String × List String
  | [], visited => ([], [], visited)
  | l :: rest, visited =>
    let child := attemptChild env depth l
    let visited1 := insertUrl l.url visited
    let r := widthLoop env depth rest visited1
    (child :: r.1, l.url :: r.2.1, r.2.2)

/-- The links eligible for width expansion of a node: its link contexts
whose URL is not already a child URL (computed against the children present
before the expansion). -/
def eligibleLinks (node : WebsiteNode) : List LinkContext :=
  node.link_contexts.filter (fun l => !((node.children.map (fun c => c.url)).contains l.url))

/-- expand_width from expand_tree.py: nothing happens for a node that was
never crawled or has no eligible links; otherwise take up to `k` links not
already present as children (by URL), fetch each as a new child at
`depth + 1`, and append them to `node.children`.  Returns the expanded
node, the count of children added, the new URLs and the updated visited
set. -/
def expandWidth (env : CrawlEnv) (node : WebsiteNode) (k : Nat) (visited : List String) :
    WebsiteNode × Nat × List String × List String :=
  if node.crawled = false then (node, 0, [], visited)
  else
    let available := eligibleLinks node
    if available.isEmpty then (node, 0, [], visited)
    else
      let linksToAdd := available.take k
      let r := widthLoop env node.depth linksToAdd visited
      ({ node with children := node.children ++ r.1 }, r.1.length, r.2.1, r.2.2)

/-- The leaf-refresh step of crawl_children_recursive: a crawled node with
no cached link contexts still below the target depth is re-fetched to
obtain links (a failed re-fetch leaves it unchanged). -/
def expandDepthRefresh (env : CrawlEnv) (maxD : Nat) (parent : WebsiteNode) :
    WebsiteNode :=
  if parent.crawled && parent.link_contexts.isEmpty && decide (parent.depth < maxD) then
    match env.fetch parent.url with
    | .error _ => parent
    | .ok pd => { parent with link_contexts := pd.links }
  else parent

/-- The top-up step of crawl_children_recursive: after the possible leaf
refresh, append children (never replacing) for the links not already
present as children, up to `maxC` children total, each fetched like a
width-expansion child.  Returns the updated node, the visited set, the new
URLs and the created children. -/
def expandDepthTopUp (env : CrawlEnv) (maxD maxC : Nat) (parent : WebsiteNode)
    (visited : List String) :
    WebsiteNode × List String × List String × List WebsiteNode :=
  let existing := parent.children.map (fun c => c.url)
  let parent1 := expandDepthRefresh env maxD parent
  if parent1.link_contexts.isEmpty then (parent1, visited, [], [])
  else
    let available := parent1.link_contexts.filter (fun l => !(existing.contains l.url))
    let needed := maxC - parent1.children.length
    if 0 < needed ∧ ¬ available.isEmpty then
      let r := widthLoop env parent1.depth (available.take needed) visited
      ({ parent1 with children := parent1.children ++ r.1 }, r.2.2, r.2.1, r.1)
    else (parent1, visited, [], [])

mutual

/-- crawl_children_recursive from expand_depth in expand_tree.py,
instrumented with a log of the child nodes created (last component): stop
at or beyond the target depth; otherwise refresh a link-less leaf, top up
its children from its unused links, and recurse into every child, old and
new.  `fuel` bounds the recursion; `expandDepth` passes enough that it
never runs out on trees the program builds. -/
def expandDepthGo (env : CrawlEnv) (maxD maxC : Nat) :
    Nat → WebsiteNode → List String →
    WebsiteNode × List String × List String × List WebsiteNode
  | 0, parent, visited => (parent, visited, [], [])
  | fuel + 1, parent, visited =>
    if maxD ≤ parent.depth then (parent, visited, [], [])
    else
      let step := expandDepthTopUp env maxD maxC parent visited
      let parent2 := step.1
      let rec1 := expandDepthKids env maxD maxC fuel parent2.children step.2.1
      ({ parent2 with children := rec1.1 }, rec1.2.1, step.2.2.1 ++ rec1.2.2.1,
        step.2.2.2 ++ rec1.2.2.2)

/-- The loop of crawl_children_recursive over the (old and new) children of
a node, threading the visited set and accumulating new URLs and the log of
created children. -/
def expandDepthKids (env : CrawlEnv) (maxD maxC : Nat) :
    Nat → List WebsiteNode → List String →
    List WebsiteNode × List String × List String × List WebsiteNode
  | _, [], visited => ([], visited, [], [])
  | fuel, c :: rest, visited =>
    let r1 := expandDepthGo env maxD maxC fuel c visited
    let r2 := expandDepthKids env maxD maxC fuel rest r1.2.1
    (r1.1 :: r2.1, r2.2.1, r1.2.2.1 ++ r2.2.2.1, r1.2.2.2 ++ r2.2.2.2)

end

/-- expand_depth from expand_tree.py, instrumented with the log of created
children: nothing happens for a node that was never crawled; otherwise the
target depth is the current maximum depth of the subtree plus
`additionalDepth`, and crawl_children_recursive grows the subtree towards
it.  Returns the expanded node, the count of nodes added (final node count
minus initial node count), the set of new URLs, the updated visited set and
the log. -/
def expandDepth (env : CrawlEnv) (node : WebsiteNode)
    (additionalDepth maxChildren : Nat) (fuel : Nat) (visited : List String) :
    WebsiteNode × Nat × List String × List String × List WebsiteNode :=
  if node.crawled = false then (node, 0, [], visited, [])
  else
    let targetDepth := findMaxDepth node + additionalDepth
    let initialCount := countNodes node
    let r := expandDepthGo env targetDepth maxChildren fuel node visited
    (r.1, countNodes r.1 - initialCount, r.2.2.1, r.2.1, r.2.2.2)

/-- The navigation-relevant state of EvolvementLoop (evolvement_loop.py):
the current tree (the controller walks the dict form, which mirrors
`WebsiteNode` field for field), the path stack from root to current node,
the current node, the width-difficulty target, the rollback snapshot stack
and the two agents' conversation histories. -/
structure NavState where
  tree : WebsiteNode
  pathStack : List WebsiteNode
  currentNode : WebsiteNode
  difficulty : Nat
  historySnapshots : List Nat
  convA : List String
  convB : List String
deriving DecidableEq, Repr

/-- _is_valid_node from evolvement_loop.py: nonempty stripped content,
description or title, or at least one child. -/
def isValidNode (n : WebsiteNode) : Bool :=
  !(pyStrip (n.content.getD "")).isEmpty || !(pyStrip (n.description.getD "")).isEmpty ||
  !(pyStrip (n.title.getD "")).isEmpty || !n.children.isEmpty

/-- _node_has_content from evolvement_loop.py: stripped content or stripped
description longer than 20 characters. -/
def nodeHasContent (n : WebsiteNode) : Bool :=
  decide (20 < (pyStrip (n.content.getD "")).length) ||
  decide (20 < (pyStrip (n.description.getD "")).length)

mutual

/-- The traverse closure of _jump_to_random_start: collect, in pre-order,
every valid node together with its ancestor path (root excluded from its
own path). -/
def collectCandidates : WebsiteNode → List WebsiteNode →
    List (WebsiteNode × List WebsiteNode)
  | ⟨u, d, t, de, co, cr, dp, ch, lc, er, rc⟩, path =>
    (if isValidNode ⟨u, d, t, de, co, cr, dp, ch, lc, er, rc⟩
     then [(⟨u, d, t, de, co, cr, dp, ch, lc, er, rc⟩, path)] else []) ++
    collectList ch (path ++ [⟨u, d, t, de, co, cr, dp, ch, lc, er, rc⟩])

/-- The children loop of the traverse closure. -/
def collectList : List WebsiteNode → List WebsiteNode →
    List (WebsiteNode × List WebsiteNode)
  | [], _ => []
  | c :: rest, path => collectCandidates c path ++ collectList rest path

end

/-- Python `min` over a nonempty list of naturals (0 on the empty list,
which the call sites never pass). -/
def listMin (l : List Nat) : Nat :=
  match l with
  | [] => 0
  | x :: xs => xs.foldl min x

/-- random.choice modelled by an arbitrary index reduced modulo the list
length. -/
def choiceAt (l : List (WebsiteNode × List WebsiteNode)) (pick : Nat) :
    WebsiteNode × List WebsiteNode :=
  l.getD (pick % l.length) (default, [])

/-- _jump_to_random_start from evolvement_loop.py: gather all valid nodes;
restrict to depth at least 1 unless none exists; prefer content-rich
candidates, then the shallowest among the preferred ones, choosing at
random among ties; the new path stack is the ancestor chain plus the
selected node.  With no candidates at all, position at the root. -/
def jumpToRandomStart (pick : Nat) (tree : WebsiteNode) :
    WebsiteNode × List WebsiteNode :=
  let candidates := collectCandidates tree []
  if candidates.isEmpty then (tree, [tree])
  else
    let depthFiltered0 := candidates.filter (fun c => decide (1 ≤ c.2.length))
    let depthFiltered := if depthFiltered0.isEmpty then candidates else depthFiltered0
    let contentCandidates := depthFiltered.filter (fun c => nodeHasContent c.1)
    if ¬ contentCandidates.isEmpty then
      let minDepth := listMin (contentCandidates.map (fun c => c.2.length))
      let shallowest := contentCandidates.filter (fun c => c.2.length = minDepth)
      let sel := choiceAt shallowest pick
      (sel.1, sel.2 ++ [sel.1])
    else
      let minDepth := listMin (depthFiltered.map (fun c => c.2.length))
      let shallowest := depthFiltered.filter (fun c => c.2.length = minDepth)
      let sel := choiceAt shallowest pick
      (sel.1, sel.2 ++ [sel.1])

/-- The persist-reload-re-resolve tail of _auto_expand_tree, reached when
the expander added nodes: swap in the reloaded tree and walk it from the
root for the previously current URL; a found (necessarily nonempty) path
becomes the new path stack, a missing URL reports failure with the stale
stack kept. -/
def autoExpandFinish (st : NavState) (newTree : WebsiteNode) : Bool × NavState :=
  let st1 := { st with tree := newTree }
  match findPath st1.tree st.currentNode.url with
  | some (x :: p) =>
    (true, { st1 with pathStack := x :: p,
                      currentNode := (x :: p).getLast (by simp) })
  | _ => (false, st1)

/-- _auto_expand_tree from evolvement_loop.py.  The composite of
"delegate to the TreeExpander, persist the mutated tree and reload it" is
abstracted by the `outcome` parameter: `none` models a thrown exception,
`some (added, newTree)` models the expander reporting `added` new nodes on
a tree whose persisted-and-reloaded form is `newTree` (reloading is the
identity on structure, see the round-trip theorem for C8).  On a positive
`added` the controller swaps in the reloaded tree and re-resolves the path
stack by matching the previously current URL from the new root; otherwise
it reports failure. -/
def autoExpandTree (outcome : Option (Nat × WebsiteNode)) (failureType : String)
    (st : NavState) : Bool × NavState :=
  let targetUrl? : Option String :=
    if failureType = "insufficient_depth" then some st.currentNode.url
    else if failureType = "insufficient_width" then
      if 2 ≤ st.pathStack.length then
        (st.pathStack.get? (st.pathStack.length - 2)).map (fun n => n.url)
      else none
    else none
  match targetUrl? with
  | none => (false, st)
  | some targetUrl =>
    match findNodeByUrl st.tree targetUrl with
    | none => (false, st)
    | some _ =>
      match outcome with
      | none => (false, st)
      | some (added, newTree) =>
        if 0 < added then autoExpandFinish st newTree
        else (false, st)

/-- _backtrack from evolvement_loop.py: fail (state untouched) unless the
path stack has more than one entry; otherwise pop one level, restore both
conversation histories to the most recent rollback snapshot when one
exists, and decay the difficulty towards the floor of 2. -/
def backtrack (st : NavState) : Bool × NavState :=
  if 1 < st.pathStack.length then
    let newStack := st.pathStack.dropLast
    let cur := newStack.getLastD st.currentNode
    let st1 :=
      match st.historySnapshots.getLast? with
      | some idx =>
        { st with pathStack := newStack, currentNode := cur,
                  historySnapshots := st.historySnapshots.dropLast,
                  convA := st.convA.take idx, convB := st.convB.take idx,
                  difficulty := max 2 (st.difficulty - 1) }
      | none =>
        { st with pathStack := newStack, currentNode := cur,
                  difficulty := max 2 (st.difficulty - 1) }
    (true, st1)
  else (false, st)

/-- The children of `n` whose stripped content is longer than `bound`
(the valid-children filter of _advance_tree). -/
def validChildren (bound : Nat) (n : WebsiteNode) : List WebsiteNode :=
  n.children.filter (fun c => decide (bound < (pyStrip (c.content.getD "")).length))

/-- random.choice over website nodes, modelled by an arbitrary index
reduced modulo the list length. -/
def choiceNode (l : List WebsiteNode) (pick : Nat) (dflt : WebsiteNode) : WebsiteNode :=
  l.getD (pick % l.length) dflt

/-- The filter-and-maybe-expand phase of _advance_tree: filter the current
node's children by a 20-character content threshold; when none qualifies,
request a depth auto-expansion and re-filter the (re-resolved) current
node's children with a 50-character threshold.  Returns the qualifying
children together with the (possibly expansion-mutated) state. -/
def advanceBase (outcome : Option (Nat × WebsiteNode))
    (st : NavState) : List WebsiteNode × NavState :=
  let valid := validChildren 20 st.currentNode
  if valid.isEmpty then
    match autoExpandTree outcome "insufficient_depth" st with
    | (true, st1) => (validChildren 50 st1.currentNode, st1)
    | (false, st1) => (valid, st1)
  else (valid, st)

/-- _advance_tree from evolvement_loop.py: filter the current node's
children by a 20-character content threshold; when none qualifies, request
a depth auto-expansion and re-filter the (re-resolved) current node's
children with a 50-character threshold; if a qualifying child exists,
record the conversation length as a rollback snapshot and descend into one
qualifying child at random, else report failure. -/
def advanceTree (outcome : Option (Nat × WebsiteNode)) (pick : Nat)
    (st : NavState) : Bool × NavState :=
  let afterExp := advanceBase outcome st
  let valid1 := afterExp.1
  let st1 := afterExp.2
  if valid1.isEmpty then (false, st1)
  else
    let best := choiceNode valid1 pick st1.currentNode
    (true, { st1 with historySnapshots := st1.historySnapshots ++ [st1.convA.length],
                      currentNode := best,
                      pathStack := st1.pathStack ++ [best] })

/-- JSON values, as produced by to_dict and consumed by from_dict in
tree_models.py (and dumped to / parsed from the tree store by io_utils.py;
the stdlib JSON text encoding is taken as faithful, so the persisted form
is modelled by the JSON value itself). -/
inductive Json where
  | null : Json
  | bool : Bool → Json
  | num : Int → Json
  | str : String → Json
  | arr : List Json → Json
  | obj : List (String × Json) → Json
deriving Repr, Inhabited

/-- Serialize an optional string the way to_dict does: None becomes null. -/
def optStrToJson : Option String → Json
  | none => .null
  | some s => .str s

/-- Read back an optional-string field the way `data.get(key)` does: a
string stays, anything else (missing key, null) reads as None. -/
def jsonOptStr : Option Json → Option String
  | some (.str s) => some s
  | _ => none

/-- LinkContext.to_dict from tree_models.py. -/
def LinkContext.toDict (l : LinkContext) : Json :=
  .obj [("url", .str l.url), ("anchor_text", .str l.anchor_text),
        ("surrounding_text", .str l.surrounding_text),
        ("relationship", optStrToJson l.relationship)]

/-- LinkContext.from_dict from tree_models.py: url, anchor_text and
surrounding_text are required (a missing one raises, modelled as none);
relationship is read with `.get`. -/
def LinkContext.fromDict (j : Json) : Option LinkContext :=
  match j with
  | .obj fs =>
    match fs.lookup "url", fs.lookup "anchor_text", fs.lookup "surrounding_text" with
    | some (.str u), some (.str a), some (.str s) =>
      some { url := u, anchor_text := a, surrounding_text := s,
             relationship := jsonOptStr (fs.lookup "relationship") }
    | _, _, _ => none
  | _ => none

/-- WebsiteNode.to_dict from tree_models.py: every field, with
link_contexts and children serialized recursively. -/
def WebsiteNode.toDict (n : WebsiteNode) : Json :=
  .obj [("url", .str n.url), ("domain", .str n.domain),
        ("title", optStrToJson n.title),
        ("description", optStrToJson n.description),
        ("content", optStrToJson n.content),
        ("crawled", .bool n.crawled),
        ("depth", .num (Int.ofNat n.depth)),
        ("error", optStrToJson n.error),
        ("relationship_cluster", optStrToJson n.relationship_cluster),
        ("link_contexts", .arr (n.link_contexts.map LinkContext.toDict)),
        ("children", .arr (n.children.attach.map (fun c => WebsiteNode.toDict c.1)))]
termination_by sizeOf n
decreasing_by exact sizeOf_lt_of_mem_children c.2

theorem sizeOf_lookup_lt {fs : List (String × Json)} {k : String} {v : Json}
    (h : fs.lookup k = some v) : sizeOf v < sizeOf fs := by
  induction fs with
  | nil => simp [List.lookup] at h
  | cons p rest ih =>
    obtain ⟨a, b⟩ := p
    simp only [List.lookup] at h
    split at h
    · cases h
      simp only [List.cons.sizeOf_spec, Prod.mk.sizeOf_spec]
      omega
    · have := ih h
      simp only [List.cons.sizeOf_spec]
      omega

/-- The element loop of the link_contexts reader: every element must be a
well-formed link context object. -/
def lcListFromDict : List Json → Option (List LinkContext)
  | [] => some []
  | j :: rest =>
    match LinkContext.fromDict j with
    | none => none
    | some l =>
      match lcListFromDict rest with
      | none => none
      | some ls => some (l :: ls)

/-- The link_contexts reader of WebsiteNode.from_dict: absent key means the
default empty list, a present key must be an array of well-formed link
context objects. -/
def lcsFromDict : Option Json → Option (List LinkContext)
  | none => some []
  | some (.arr l) => lcListFromDict l
  | some _ => none

mutual

/-- WebsiteNode.from_dict from tree_models.py: url and domain are required
(a missing one raises, modelled as none); the scalar fields are read with
`.get` and its defaults; link_contexts and children are deserialized
recursively when their keys are present. -/
def WebsiteNode.fromDict (j : Json) : Option WebsiteNode :=
  match j with
  | .obj fs =>
    match fs.lookup "url", fs.lookup "domain" with
    | some (.str u), some (.str d) =>
      match lcsFromDict (fs.lookup "link_contexts") with
      | none => none
      | some lcs =>
        match h : fs.lookup "children" with
        | none =>
          some { url := u, domain := d,
                 title := jsonOptStr (fs.lookup "title"),
                 description := jsonOptStr (fs.lookup "description"),
                 content := jsonOptStr (fs.lookup "content"),
                 crawled := (match fs.lookup "crawled" with
                             | some (.bool b) => b
                             | _ => false),
                 depth := (match fs.lookup "depth" with
                           | some (.num i) => i.toNat
                           | _ => 0),
                 error := jsonOptStr (fs.lookup "error"),
                 relationship_cluster := jsonOptStr (fs.lookup "relationship_cluster"),
                 link_contexts := lcs, children := [] }
        | some (.arr cl) =>
          match WebsiteNode.fromDictList cl with
          | none => none
          | some cs =>
            some { url := u, domain := d,
                   title := jsonOptStr (fs.lookup "title"),
                   description := jsonOptStr (fs.lookup "description"),
                   content := jsonOptStr (fs.lookup "content"),
                   crawled := (match fs.lookup "crawled" with
                               | some (.bool b) => b
                               | _ => false),
                   depth := (match fs.lookup "depth" with
                             | some (.num i) => i.toNat
                             | _ => 0),
                   error := jsonOptStr (fs.lookup "error"),
                   relationship_cluster := jsonOptStr (fs.lookup "relationship_cluster"),
                   link_contexts := lcs, children := cs }
        | some _ => none
    | _, _ => none
  | _ => none
termination_by sizeOf j
decreasing_by
  simp_wf
  have h1 := sizeOf_lookup_lt h
  have h2 : sizeOf (Json.arr cl) = 1 + sizeOf cl := by simp
  have h3 : sizeOf (Json.obj fs) = 1 + sizeOf fs := by simp
  omega

/-- The recursive children loop of WebsiteNode.from_dict. -/
def WebsiteNode.fromDictList (l : List Json) : Option (List WebsiteNode) :=
  match l with
  | [] => some []
  | j :: rest =>
    match WebsiteNode.fromDict j with
    | none => none
    | some n =>
      match WebsiteNode.fromDictList rest with
      | none => none
      | some ns => some (n :: ns)
termination_by sizeOf l
decreasing_by all_goals (simp_wf <;> omega)

end

/-- A concrete tree node constructor used by the concrete witnesses below:
a crawled leaf with a given URL and content. -/
def mkLeaf (u : String) (c : Option String) : WebsiteNode :=
  { url := u, domain := "example.com", content := c, crawled := true, children := [] }

/-- C6: backtrack called with a single-element path_stack returns failure
and leaves the entire controller state (path stack, current node,
conversation histories, difficulty, snapshots, tree) unchanged; with a
longer stack it returns success, pops exactly one level, decays the
difficulty by one with a floor of 2, and, when a rollback snapshot exists,
truncates both conversation histories to the most recent snapshot and pops
that snapshot. -/
theorem backtrack_spec (st : NavState) :
    (st.pathStack.length = 1 → backtrack st = (false, st)) ∧
    (1 < st.pathStack.length →
      (backtrack st).1 = true ∧
      (backtrack st).2.pathStack = st.pathStack.dropLast ∧
      (backtrack st).2.currentNode = st.pathStack.dropLast.getLastD st.currentNode ∧
      (backtrack st).2.tree = st.tree ∧
      (backtrack st).2.difficulty = max 2 (st.difficulty - 1) ∧
      (∀ idx, st.historySnapshots.getLast? = some idx →
        (backtrack st).2.convA = st.convA.take idx ∧
        (backtrack st).2.convB = st.convB.take idx ∧
        (backtrack st).2.historySnapshots = st.historySnapshots.dropLast)) := by
  constructor
  · intro h
    simp [backtrack, h]
  · intro h
    refine ⟨?_, ?_, ?_, ?_, ?_, ?_⟩
    · cases hs : st.historySnapshots.getLast? <;> simp [backtrack, h, hs]
    · cases hs : st.historySnapshots.getLast? <;> simp [backtrack, h, hs]
    · cases hs : st.historySnapshots.getLast? <;> simp [backtrack, h, hs]
    · cases hs : st.historySnapshots.getLast? <;> simp [backtrack, h, hs]
    · cases hs : st.historySnapshots.getLast? <;> simp [backtrack, h, hs]
    · intro idx hidx
      simp [backtrack, h, hidx]

/-- A concrete controller state for the backtrack witness: at depth 1 with
one rollback snapshot. -/
def backtrackStateW : NavState :=
  { tree := mkLeaf "http://r.example" none,
    pathStack := [mkLeaf "http://r.example" none, mkLeaf "http://a.example" (some "text")],
    currentNode := mkLeaf "http://a.example" (some "text"),
    difficulty := 3, historySnapshots := [0, 1],
    convA := ["qa", "aa"], convB := ["qb", "ab"] }

/-- Witness for C6 at a concrete state: the stack has two entries, so
backtrack succeeds, pops to the root, decays difficulty 3 to 2 and
truncates the histories to the snapshot 1. -/
theorem backtrack_spec_witness :
    (backtrack backtrackStateW).1 = true ∧
    (backtrack backtrackStateW).2.pathStack = backtrackStateW.pathStack.dropLast ∧
    (backtrack backtrackStateW).2.convA = backtrackStateW.convA.take 1 := by
  have h := (backtrack_spec backtrackStateW).2 (by decide)
  exact ⟨h.1, h.2.1, (h.2.2.2.2.2 1 (by decide)).1⟩

theorem findNodeByUrlList_eq_find? (url : String) :
    ∀ l : List WebsiteNode,
      (∀ c ∈ l, findNodeByUrl c url = (preorderNodes c).find? (fun n => n.url == url)) →
      findNodeByUrlList l url = (preorderList l).find? (fun n => n.url == url) := by
  intro l
  induction l with
  | nil => intro _; simp [findNodeByUrlList, preorderList]
  | cons c rest ih =>
    intro hm
    rw [findNodeByUrlList, preorderList, List.find?_append]
    have hc := hm c (by simp)
    rw [hc]
    cases hfind : (preorderNodes c).find? (fun n => n.url == url) with
    | some r => simp
    | none =>
      simp only [Option.or]
      exact ih (fun x hx => hm x (by simp [hx]))

/-- find_node_by_url returns the first node of the pre-order traversal
whose URL matches. -/
theorem findNodeByUrl_eq_find? (root : WebsiteNode) (url : String) :
    findNodeByUrl root url = (preorderNodes root).find? (fun n => n.url == url) := by
  induction root using WebsiteNode.inductionOn with
  | step root ih =>
    rw [findNodeByUrl_eq, preorderNodes_eq]
    by_cases h : root.url = url
    · simp [h]
    · rw [if_neg h]
      rw [List.find?_cons_of_neg _ (by simp [h])]
      exact findNodeByUrlList_eq_find? url root.children ih

theorem findPathList_exists (url : String) :
    ∀ (l : List WebsiteNode) (q : List WebsiteNode),
      findPathList l url = some q → ∃ c ∈ l, findPath c url = some q := by
  intro l
  induction l with
  | nil => intro q hq; simp [findPathList] at hq
  | cons c rest ih =>
    intro q hq
    rw [findPathList] at hq
    cases hc : findPath c url with
    | some p =>
      rw [hc] at hq
      cases hq
      exact ⟨c, by simp, hc⟩
    | none =>
      rw [hc] at hq
      obtain ⟨x, hx, hfx⟩ := ih q hq
      exact ⟨x, by simp [hx], hfx⟩

/-- The structural guarantees of find_path: a found path starts at the
queried root, follows child edges, and ends at a node carrying the queried
URL. -/
theorem findPath_spec (root : WebsiteNode) (url : String) :
    ∀ p, findPath root url = some p →
      p.head? = some root ∧
      List.Chain' (fun a c => c ∈ a.children) p ∧
      ∃ x, p.getLast? = some x ∧ x.url = url := by
  induction root using WebsiteNode.inductionOn with
  | step root ih =>
    intro p hp
    rw [findPath_eq] at hp
    by_cases h : root.url = url
    · rw [if_pos h] at hp
      cases hp
      exact ⟨rfl, by simp, root, rfl, h⟩
    · rw [if_neg h] at hp
      cases hq : findPathList root.children url with
      | none => rw [hq] at hp; cases hp
      | some q =>
        rw [hq] at hp
        cases hp
        obtain ⟨c, hcmem, hcq⟩ := findPathList_exists url root.children q hq
        obtain ⟨hhead, hchain, x, hlast, hxurl⟩ := ih c hcmem q hcq
        cases q with
        | nil => cases hhead
        | cons q0 qrest =>
          have hq0 : q0 = c := by simpa using hhead
          refine ⟨rfl, ?_, x, ?_, hxurl⟩
          · rw [List.chain'_cons']
            constructor
            · intro y hy
              simp only [List.head?_cons, Option.mem_def, Option.some.injEq] at hy
              rw [← hy, hq0]
              exact hcmem
            · exact hchain
          · simpa using hlast

theorem findPathList_bind_getLast? (url : String) :
    ∀ l : List WebsiteNode,
      (∀ c ∈ l, (findPath c url).bind List.getLast? = findNodeByUrl c url ∧
        ∀ q, findPath c url = some q → q ≠ []) →
      ((findPathList l url).bind List.getLast? = findNodeByUrlList l url ∧
        ∀ q, findPathList l url = some q → q ≠ []) := by
  intro l
  induction l with
  | nil => intro _; simp [findPathList, findNodeByUrlList]
  | cons c rest ih =>
    intro hm
    have hc := hm c (by simp)
    have hrest := ih (fun x hx => hm x (by simp [hx]))
    rw [findPathList, findNodeByUrlList]
    cases hfc : findPath c url with
    | some p =>
      have hne : p ≠ [] := hc.2 p hfc
      have h1 : findNodeByUrl c url = p.getLast? := by
        rw [← hc.1, hfc]; rfl
      cases hgl : p.getLast? with
      | none =>
        rw [List.getLast?_eq_none_iff] at hgl
        exact absurd hgl hne
      | some x =>
        rw [h1, hgl]
        exact ⟨hgl, fun q hq => by cases hq; exact hne⟩
    | none =>
      have h2 : findNodeByUrl c url = none := by
        rw [← hc.1, hfc]; rfl
      rw [h2]
      exact hrest

theorem findPath_bind_getLast? (root : WebsiteNode) (url : String) :
    (findPath root url).bind List.getLast? = findNodeByUrl root url ∧
    ∀ q, findPath root url = some q → q ≠ [] := by
  induction root using WebsiteNode.inductionOn with
  | step root ih =>
    rw [findPath_eq, findNodeByUrl_eq]
    by_cases h : root.url = url
    · simp [h]
    · rw [if_neg h, if_neg h]
      have hl := findPathList_bind_getLast? url root.children ih
      cases hq : findPathList root.children url with
      | none =>
        refine ⟨?_, fun q hq2 => ?_⟩
        · show (none : Option WebsiteNode) = findNodeByUrlList root.children url
          have h2 := hl.1
          rw [hq] at h2
          simp only [Option.bind] at h2
          exact h2
        · exact absurd (show (none : Option (List WebsiteNode)) = some q from hq2) (by simp)
      | some p =>
        have hne : p ≠ [] := hl.2 p hq
        refine ⟨?_, fun q hq2 => ?_⟩
        · show (root :: p).getLast? = findNodeByUrlList root.children url
          have h1 : p.getLast? = findNodeByUrlList root.children url := by
            have h2 := hl.1
            rw [hq] at h2
            simpa using h2
          rw [← h1]
          cases p with
          | nil => exact absurd rfl hne
          | cons a as => exact List.getLast?_cons_cons
        · have h3 : root :: p = q := by simpa using hq2
          rw [← h3]
          simp

/-- C9: find_node_by_url and the controller's find_path both resolve a URL
to its first occurrence in pre-order: find_node_by_url equals `find?` over
the pre-order listing, and the last entry of any path found by find_path is
that same pre-order-first node.  Hence, with duplicate URLs in the tree,
the re-resolved position after a reload is the pre-order-first occurrence,
not necessarily the position held before. -/
theorem findFirst_preorder_spec (root : WebsiteNode) (url : String) :
    findNodeByUrl root url = (preorderNodes root).find? (fun n => n.url == url) ∧
    (findPath root url).bind List.getLast? =
      (preorderNodes root).find? (fun n => n.url == url) := by
  refine ⟨findNodeByUrl_eq_find? root url, ?_⟩
  rw [(findPath_bind_getLast? root url).1]
  exact findNodeByUrl_eq_find? root url

/-- C1: whenever _auto_expand_tree reports success, the rebuilt path stack
starts at the reloaded tree's root, follows child edges of the reloaded
tree at every step, and its last entry carries the URL of the node that was
current immediately before the call. -/
theorem autoExpandFinish_spec (st : NavState) (newTree : WebsiteNode) (st' : NavState)
    (h : autoExpandFinish st newTree = (true, st')) :
    st'.pathStack.head? = some st'.tree ∧
    List.Chain' (fun a c => c ∈ a.children) st'.pathStack ∧
    ∃ x, st'.pathStack.getLast? = some x ∧ x.url = st.currentNode.url := by
  simp only [autoExpandFinish] at h
  split at h
  next x p hfp =>
    injection h with h1 h2
    subst h2
    obtain ⟨hhead, hchain, y, hlast, hyurl⟩ := findPath_spec _ _ _ hfp
    refine ⟨?_, ?_, y, ?_, hyurl⟩
    · simpa using hhead
    · simpa using hchain
    · simpa using hlast
  next =>
    exact absurd (congrArg Prod.fst h) (by simp)

/-- C1: whenever _auto_expand_tree reports success, the rebuilt path stack
starts at the reloaded tree's root, follows child edges of the reloaded
tree at every step, and its last entry carries the URL of the node that was
current immediately before the call. -/
theorem autoExpand_success_spec (outcome : Option (Nat × WebsiteNode)) (ft : String)
    (st st' : NavState) (h : autoExpandTree outcome ft st = (true, st')) :
    st'.pathStack.head? = some st'.tree ∧
    List.Chain' (fun a c => c ∈ a.children) st'.pathStack ∧
    ∃ x, st'.pathStack.getLast? = some x ∧ x.url = st.currentNode.url := by
  simp only [autoExpandTree] at h
  repeat' split at h
  all_goals
    first
      | exact autoExpandFinish_spec _ _ _ h
      | exact absurd (congrArg Prod.fst h) (by simp)

/-- Concrete old current node for the C1 witness. -/
def c1A : WebsiteNode := mkLeaf "http://a.example" (some "alpha")

/-- Concrete old tree for the C1 witness. -/
def c1Tree : WebsiteNode :=
  { url := "http://r.example", domain := "example.com", crawled := true,
    children := [c1A] }

/-- Concrete node added by the expansion in the C1 witness. -/
def c1NewC : WebsiteNode := mkLeaf "http://c.example" (some "gamma")

/-- The reloaded form of the old current node after expansion. -/
def c1NewA : WebsiteNode :=
  { url := "http://a.example", domain := "example.com", content := some "alpha",
    crawled := true, children := [c1NewC] }

/-- The reloaded tree after expansion in the C1 witness. -/
def c1NewTree : WebsiteNode :=
  { url := "http://r.example", domain := "example.com", crawled := true,
    children := [c1NewA] }

/-- Concrete controller state for the C1 witness. -/
def c1State : NavState :=
  { tree := c1Tree, pathStack := [c1Tree, c1A], currentNode := c1A,
    difficulty := 2, historySnapshots := [0], convA := [], convB := [] }

/-- The state after the successful expansion of the C1 witness. -/
def c1StateAfter : NavState :=
  { tree := c1NewTree, pathStack := [c1NewTree, c1NewA], currentNode := c1NewA,
    difficulty := 2, historySnapshots := [0], convA := [], convB := [] }

/-- Witness for C1: a concrete successful depth expansion, whose rebuilt
path stack starts at the reloaded root, follows child edges and ends at the
previously current URL. -/
theorem autoExpand_success_spec_witness :
    c1StateAfter.pathStack.head? = some c1StateAfter.tree ∧
    List.Chain' (fun a c => c ∈ a.children) c1StateAfter.pathStack ∧
    ∃ x, c1StateAfter.pathStack.getLast? = some x ∧ x.url = c1State.currentNode.url := by
  exact autoExpand_success_spec (some (1, c1NewTree)) "insufficient_depth"
    c1State c1StateAfter rfl

theorem jsonOptStr_optStrToJson (o : Option String) :
    jsonOptStr (some (optStrToJson o)) = o := by
  cases o <;> rfl

theorem linkContext_fromDict_toDict (l : LinkContext) :
    LinkContext.fromDict (LinkContext.toDict l) = some l := by
  obtain ⟨u, a, st, r⟩ := l
  rw [LinkContext.toDict, LinkContext.fromDict]
  simp [List.lookup, jsonOptStr_optStrToJson]

theorem lcListFromDict_map_toDict (ls : List LinkContext) :
    lcListFromDict (ls.map LinkContext.toDict) = some ls := by
  induction ls with
  | nil => rfl
  | cons l rest ih =>
    rw [List.map_cons, lcListFromDict, linkContext_fromDict_toDict, ih]

theorem fromDictList_map_toDict :
    ∀ l : List WebsiteNode,
      (∀ c ∈ l, WebsiteNode.fromDict (WebsiteNode.toDict c) = some c) →
      WebsiteNode.fromDictList (l.map WebsiteNode.toDict) = some l := by
  intro l
  induction l with
  | nil => intro _; rw [List.map_nil, WebsiteNode.fromDictList]
  | cons c rest ih =>
    intro hm
    rw [List.map_cons, WebsiteNode.fromDictList]
    rw [hm c (by simp)]
    rw [ih (fun x hx => hm x (by simp [hx]))]

/-- C8: deserializing the serialization of any website tree returns it
unchanged: from_dict (to_dict n) rebuilds a tree equal to n on every field
of WebsiteNode and LinkContext, recursively through children.  The
persisted JSON file holds exactly to_dict of the root (io_utils.py), so
load after save is the identity on structure and field values. -/
theorem fromDict_toDict (n : WebsiteNode) :
    WebsiteNode.fromDict (WebsiteNode.toDict n) = some n := by
  induction n using WebsiteNode.inductionOn with
  | step n ih =>
    obtain ⟨u, d, t, de, co, cr, dp, ch, lc, er, rc⟩ := n
    simp only at ih
    have hfd : WebsiteNode.fromDictList (ch.map WebsiteNode.toDict) = some ch :=
      fromDictList_map_toDict ch ih
    rw [WebsiteNode.toDict, WebsiteNode.fromDict]
    have hma : (List.attach ch).map (fun c => WebsiteNode.toDict c.1) =
        ch.map WebsiteNode.toDict := by
      simp
    rw [hma]
    simp [List.lookup, hfd, lcsFromDict, lcListFromDict_map_toDict,
      jsonOptStr_optStrToJson]

theorem depthInv_eq (d : Nat) (n : WebsiteNode) :
    depthInv d n = (n.depth ≤ d ∧ ∀ c ∈ n.children, c.depth = n.depth + 1 ∧ depthInv d c) := by
  rw [depthInv]

theorem crawl_depth_inv (env : CrawlEnv) (maxD maxC : Nat) :
    ∀ fuel : Nat,
      (∀ node visited fetched, node.children = [] →
        (crawlNode env maxD maxC fuel node visited fetched).1.depth = node.depth ∧
        (node.depth ≤ maxD →
          depthInv maxD (crawlNode env maxD maxC fuel node visited fetched).1)) := by
  intro fuel
  induction fuel with
  | zero =>
    intro node visited fetched hch
    rw [crawlNode]
    refine ⟨by trivial, fun hd => ?_⟩
    rw [depthInv_eq]
    simp [hch, hd]
  | succ f ih =>
    have kids : ∀ links visited fetched depth,
        ∀ c ∈ (crawlKids env maxD maxC f depth links visited fetched).1,
          c.depth = depth + 1 ∧ (depth + 1 ≤ maxD → depthInv maxD c) := by
      intro links
      induction links with
      | nil => intro visited fetched depth c hc; rw [crawlKids] at hc; simp at hc
      | cons l rest ihl =>
        intro visited fetched depth c hc
        rw [crawlKids] at hc
        simp only [List.mem_cons] at hc
        cases hc with
        | inl hc =>
          subst hc
          have h := ih { url := l.url, domain := extractDomain l.url, depth := depth + 1,
                         children := [], relationship_cluster := l.relationship }
            visited fetched rfl
          exact ⟨h.1, fun hb => h.2 hb⟩
        | inr hc =>
          exact ihl _ _ depth c hc
    intro node visited fetched hch
    rw [crawlNode]
    by_cases hv : node.url ∈ visited
    · rw [if_pos hv]
      refine ⟨by trivial, fun hd => ?_⟩
      rw [depthInv_eq]
      simp [hch, hd]
    · rw [if_neg hv]
      cases hf : env.fetch node.url with
      | error e =>
        simp only
        refine ⟨by trivial, fun hd => ?_⟩
        rw [depthInv_eq]
        simp [hch, hd]
      | ok pd =>
        simp only
        by_cases hd : maxD ≤ node.depth
        · rw [if_pos hd]
          refine ⟨by trivial, fun hle => ?_⟩
          rw [depthInv_eq]
          simp [hch, hle]
        · rw [if_neg hd]
          refine ⟨by trivial, fun hle => ?_⟩
          rw [depthInv_eq]
          constructor
          · simpa using hle
          · intro c hc
            simp only [hch, List.nil_append] at hc
            have := kids _ _ _ _ c hc
            exact ⟨this.1, this.2 (by omega)⟩

/-- C3: every tree built by crawl_tree has a root of depth 0, every
non-root node's depth is its parent's depth plus one, and no node's depth
exceeds max_depth — for any fetch oracle, any root URL and any bounds. -/
theorem crawlTree_depth_spec (env : CrawlEnv) (rootUrl : String) (maxD maxC : Nat) :
    (crawlTree env rootUrl maxD maxC).depth = 0 ∧
    depthInv maxD (crawlTree env rootUrl maxD maxC) := by
  have h := crawl_depth_inv env maxD maxC (maxD + 1)
    { url := normalizeUrl rootUrl, domain := extractDomain (normalizeUrl rootUrl),
      depth := 0, children := [] } [] [] rfl
  exact ⟨h.1, h.2 (Nat.zero_le maxD)⟩

theorem crawl_fetch_inv (env : CrawlEnv) (maxD maxC : Nat) :
    ∀ fuel : Nat,
      (∀ (node : WebsiteNode) (visited fetched : List String),
        fetched.Nodup → (∀ u ∈ fetched, u ∈ visited) →
        (crawlNode env maxD maxC fuel node visited fetched).2.2.Nodup ∧
        (∀ u ∈ (crawlNode env maxD maxC fuel node visited fetched).2.2,
          u ∈ (crawlNode env maxD maxC fuel node visited fetched).2.1) ∧
        (∀ u ∈ visited, u ∈ (crawlNode env maxD maxC fuel node visited fetched).2.1)) := by
  intro fuel
  induction fuel with
  | zero =>
    intro node visited fetched hnd hsub
    rw [crawlNode]
    exact ⟨hnd, hsub, fun u hu => hu⟩
  | succ f ih =>
    have kids : ∀ links (visited fetched : List String) (depth : Nat),
        fetched.Nodup → (∀ u ∈ fetched, u ∈ visited) →
        (crawlKids env maxD maxC f depth links visited fetched).2.2.Nodup ∧
        (∀ u ∈ (crawlKids env maxD maxC f depth links visited fetched).2.2,
          u ∈ (crawlKids env maxD maxC f depth links visited fetched).2.1) ∧
        (∀ u ∈ visited, u ∈ (crawlKids env maxD maxC f depth links visited fetched).2.1) := by
      intro links
      induction links with
      | nil =>
        intro visited fetched depth hnd hsub
        rw [crawlKids]
        exact ⟨hnd, hsub, fun u hu => hu⟩
      | cons l rest ihl =>
        intro visited fetched depth hnd hsub
        rw [crawlKids]
        have h1 := ih { url := l.url, domain := extractDomain l.url, depth := depth + 1,
                        children := [], relationship_cluster := l.relationship }
          visited fetched hnd hsub
        have h2 := ihl
          (crawlNode env maxD maxC f
            { url := l.url, domain := extractDomain l.url, depth := depth + 1,
              children := [], relationship_cluster := l.relationship } visited fetched).2.1
          (crawlNode env maxD maxC f
            { url := l.url, domain := extractDomain l.url, depth := depth + 1,
              children := [], relationship_cluster := l.relationship } visited fetched).2.2
          depth h1.1 h1.2.1
        exact ⟨h2.1, h2.2.1, fun u hu => h2.2.2 u (h1.2.2 u hu)⟩
    intro node visited fetched hnd hsub
    rw [crawlNode]
    by_cases hv : node.url ∈ visited
    · rw [if_pos hv]
      exact ⟨hnd, hsub, fun u hu => hu⟩
    · rw [if_neg hv]
      have hnd1 : (fetched ++ [node.url]).Nodup := by
        rw [List.nodup_append]
        refine ⟨hnd, by simp, ?_⟩
        intro u hu hu2
        simp only [List.mem_singleton] at hu2
        subst hu2
        exact hv (hsub node.url hu)
      have hsub1 : ∀ u ∈ fetched ++ [node.url], u ∈ node.url :: visited := by
        intro u hu
        rcases List.mem_append.mp hu with h | h
        · exact List.mem_cons_of_mem _ (hsub u h)
        · simp only [List.mem_singleton] at h
          simp [h]
      cases hf : env.fetch node.url with
      | error e =>
        simp only
        exact ⟨hnd1, hsub1, fun u hu => List.mem_cons_of_mem _ hu⟩
      | ok pd =>
        simp only
        by_cases hd : maxD ≤ node.depth
        · rw [if_pos hd]
          exact ⟨hnd1, hsub1, fun u hu => List.mem_cons_of_mem _ hu⟩
        · rw [if_neg hd]
          simp only
          refine ⟨?_, ?_, ?_⟩
          · exact (kids _ _ _ _ hnd1 hsub1).1
          · exact (kids _ _ _ _ hnd1 hsub1).2.1
          · intro u hu
            exact (kids _ _ _ _ hnd1 hsub1).2.2 u (List.mem_cons_of_mem _ hu)

/-- C7: within a single crawl_tree run no URL is fetched twice: a node
whose URL is already in the visited set is marked crawled = false with
error "Already visited" without touching the fetch log or the visited set,
and the fetch log of a whole run never repeats a URL (every URL enters the
visited set before its children are crawled, so later occurrences are
skipped). -/
theorem crawl_no_refetch_spec (env : CrawlEnv) (maxD maxC : Nat) :
    (∀ (fuel : Nat) (node : WebsiteNode) (visited fetched : List String),
      node.url ∈ visited →
      crawlNode env maxD maxC (fuel + 1) node visited fetched =
        ({ node with crawled := false, error := some "Already visited" },
         visited, fetched)) ∧
    (∀ rootUrl, (crawlTreeFetchLog env rootUrl maxD maxC).Nodup) := by
  constructor
  · intro fuel node visited fetched hv
    rw [crawlNode]
    rw [if_pos hv]
  · intro rootUrl
    have h := crawl_fetch_inv env maxD maxC (maxD + 1)
      { url := normalizeUrl rootUrl, domain := extractDomain (normalizeUrl rootUrl),
        depth := 0, children := [] } [] [] (by simp) (by simp)
    exact h.1

theorem widthLoop_spec (env : CrawlEnv) (depth : Nat) :
    ∀ (links : List LinkContext) (visited : List String),
      (widthLoop env depth links visited).1 = links.map (attemptChild env depth) ∧
      (widthLoop env depth links visited).2.1 = links.map (fun l => l.url) := by
  intro links
  induction links with
  | nil => intro visited; rw [widthLoop]; exact ⟨rfl, rfl⟩
  | cons l rest ih =>
    intro visited
    rw [widthLoop]
    have h := ih (insertUrl l.url visited)
    simp only [List.map_cons]
    exact ⟨by rw [← h.1], by rw [← h.2]⟩

/-- C4: expand_width appends, never removes or reorders: the pre-existing
children stay as an unchanged front segment, the resulting child count is
the old count plus min(k, number of link contexts whose URL is not already
a child URL), that minimum is also the returned added count, and a node
never crawled or with no eligible links is left unchanged with (0, empty
new-URL set) returned. -/
theorem expandWidth_spec (env : CrawlEnv) (node : WebsiteNode) (k : Nat)
    (visited : List String) :
    (node.crawled = false →
      expandWidth env node k visited = (node, 0, [], visited)) ∧
    (node.crawled = true → eligibleLinks node = [] →
      expandWidth env node k visited = (node, 0, [], visited)) ∧
    (node.crawled = true →
      (expandWidth env node k visited).1.children =
        node.children ++ ((eligibleLinks node).take k).map (attemptChild env node.depth) ∧
      (expandWidth env node k visited).1.children.length =
        node.children.length + min k (eligibleLinks node).length ∧
      (expandWidth env node k visited).2.1 = min k (eligibleLinks node).length) := by
  refine ⟨?_, ?_, ?_⟩
  · intro hc
    rw [expandWidth.eq_def, if_pos (by rw [hc])]
  · intro hc he
    rw [expandWidth.eq_def, if_neg (by rw [hc]; simp)]
    simp only [he]
    rw [if_pos (by simp)]
  · intro hc
    rw [expandWidth.eq_def, if_neg (by rw [hc]; simp)]
    by_cases he : (eligibleLinks node).isEmpty
    · rw [if_pos he]
      rw [List.isEmpty_iff] at he
      simp [he]
    · rw [if_neg he]
      have hw := widthLoop_spec env node.depth ((eligibleLinks node).take k) visited
      simp only [hw.1, hw.2]
      refine ⟨by trivial, ?_, ?_⟩
      · simp [List.length_take]
      · simp [List.length_take]

/-- A concrete link context used by the C4 witness. -/
def c4L (u : String) : LinkContext :=
  { url := u, anchor_text := "anchor text", surrounding_text := "surrounding" }

/-- The spec's concrete expand_width scenario: a crawled node with five
link contexts of which two are already children. -/
def c4Node : WebsiteNode :=
  { url := "http://p.example", domain := "example.com", crawled := true, depth := 0,
    children := [mkLeaf "http://l1.example" none, mkLeaf "http://l2.example" none],
    link_contexts := [c4L "http://l1.example", c4L "http://l2.example",
      c4L "http://l3.example", c4L "http://l4.example", c4L "http://l5.example"] }

/-- A fetch oracle that always succeeds with an empty page. -/
def c4Env : CrawlEnv :=
  { fetch := fun _ => .ok {}, sample := fun l _ => l }

/-- Witness for C4 at the spec's concrete scenario: k = 2 with three
eligible links adds exactly two children and leaves the two original
children as an unchanged front segment. -/
theorem expandWidth_spec_witness :
    (expandWidth c4Env c4Node 2 []).1.children.length = c4Node.children.length + 2 ∧
    (expandWidth c4Env c4Node 2 []).2.1 = 2 ∧
    (expandWidth c4Env c4Node 2 []).1.children =
      c4Node.children ++ ((eligibleLinks c4Node).take 2).map (attemptChild c4Env c4Node.depth) := by
  have h := (expandWidth_spec c4Env c4Node 2 []).2.2 rfl
  refine ⟨?_, ?_, h.1⟩
  · rw [h.2.1]
    rfl
  · rw [h.2.2]
    rfl

theorem choiceAt_mem (l : List (WebsiteNode × List WebsiteNode)) (pick : Nat)
    (h : l ≠ []) : choiceAt l pick ∈ l := by
  rw [choiceAt]
  have hlen : pick % l.length < l.length :=
    Nat.mod_lt _ (List.length_pos.mpr h)
  rw [List.getD_eq_getElem l _ hlen]
  exact List.getElem_mem hlen

theorem foldlMin_mem (xs : List Nat) : ∀ x : Nat, xs.foldl min x ∈ x :: xs := by
  induction xs with
  | nil => intro x; simp
  | cons y ys ih =>
    intro x
    rw [List.foldl_cons]
    have h := ih (min x y)
    rcases List.mem_cons.mp h with h | h
    · rw [h]
      rcases Nat.le_total x y with hxy | hxy
      · rw [Nat.min_eq_left hxy]; simp
      · rw [Nat.min_eq_right hxy]; simp
    · simp [h]

theorem listMin_attained (l : List Nat) (h : l ≠ []) : listMin l ∈ l := by
  cases l with
  | nil => exact absurd rfl h
  | cons x xs => rw [listMin]; exact foldlMin_mem xs x

/-- The concrete shallow node A of the spec's jump scenario. -/
def c5A : WebsiteNode :=
  { url := "http://a5.example", domain := "example.com", content := some "short",
    crawled := true, children := [] }

/-- The concrete content-rich node B of the spec's jump scenario. -/
def c5B : WebsiteNode :=
  { url := "http://b5.example", domain := "example.com",
    content := some "this is thirty plus chars of real content",
    crawled := true, children := [] }

/-- The concrete two-level tree of the spec's jump scenario: a root with
empty content and the two children A and B. -/
def c5Tree : WebsiteNode :=
  { url := "http://r5.example", domain := "example.com", content := some "",
    crawled := true, children := [c5A, c5B] }

/-- C5: whenever some valid node of depth at least 1 exists,
_jump_to_random_start lands at depth at least 1 (the new path stack has at
least two entries); when moreover a content-rich depth-filtered candidate
exists, the selection comes from the content-rich candidates at their
minimum depth; and on the spec's concrete two-level tree the unique
content-rich depth-1 node B is selected for every random draw. -/
theorem jump_spec (tree : WebsiteNode) (pick : Nat) :
    ((∃ x ∈ collectCandidates tree [], 1 ≤ x.2.length) →
      2 ≤ (jumpToRandomStart pick tree).2.length) ∧
    ((∃ x ∈ collectCandidates tree [], 1 ≤ x.2.length) →
      (∃ x ∈ (collectCandidates tree []).filter (fun c => decide (1 ≤ c.2.length)),
        nodeHasContent x.1) →
      (∃ sel ∈ ((collectCandidates tree []).filter
            (fun c => decide (1 ≤ c.2.length))).filter (fun c => nodeHasContent c.1),
        sel.2.length = listMin ((((collectCandidates tree []).filter
            (fun c => decide (1 ≤ c.2.length))).filter
            (fun c => nodeHasContent c.1)).map (fun c => c.2.length)) ∧
        jumpToRandomStart pick tree = (sel.1, sel.2 ++ [sel.1]))) ∧
    (∀ pk : Nat, jumpToRandomStart pk c5Tree = (c5B, [c5Tree, c5B])) := by
  have main : ∀ t p, ((∃ x ∈ collectCandidates t [], 1 ≤ x.2.length) →
      2 ≤ (jumpToRandomStart p t).2.length) ∧
      ((∃ x ∈ collectCandidates t [], 1 ≤ x.2.length) →
      (∃ x ∈ (collectCandidates t []).filter (fun c => decide (1 ≤ c.2.length)),
        nodeHasContent x.1) →
      (∃ sel ∈ ((collectCandidates t []).filter
            (fun c => decide (1 ≤ c.2.length))).filter (fun c => nodeHasContent c.1),
        sel.2.length = listMin ((((collectCandidates t []).filter
            (fun c => decide (1 ≤ c.2.length))).filter
            (fun c => nodeHasContent c.1)).map (fun c => c.2.length)) ∧
        jumpToRandomStart p t = (sel.1, sel.2 ++ [sel.1]))) := by
    intro t p
    by_cases hce : (collectCandidates t []).isEmpty
    · rw [List.isEmpty_iff] at hce
      constructor
      · intro hx
        obtain ⟨x, hxm, _⟩ := hx
        rw [hce] at hxm
        simp at hxm
      · intro hx _
        obtain ⟨x, hxm, _⟩ := hx
        rw [hce] at hxm
        simp at hxm
    · constructor
      · intro hx
        obtain ⟨x, hxm, hxlen⟩ := hx
        have hdf0 : x ∈ (collectCandidates t []).filter (fun c => decide (1 ≤ c.2.length)) :=
          List.mem_filter.mpr ⟨hxm, by simpa using hxlen⟩
        have hdf0_ne : ¬ ((collectCandidates t []).filter
            (fun c => decide (1 ≤ c.2.length))).isEmpty := by
          rw [List.isEmpty_iff]
          intro h
          rw [h] at hdf0
          simp at hdf0
        rw [jumpToRandomStart]
        rw [if_neg hce]
        simp only []
        rw [if_neg hdf0_ne]
        set df := (collectCandidates t []).filter (fun c => decide (1 ≤ c.2.length)) with hdf
        by_cases hcc : ¬ (df.filter (fun c => nodeHasContent c.1)).isEmpty
        · rw [if_pos hcc]
          set cc := df.filter (fun c => nodeHasContent c.1) with hcc_def
          set sh := cc.filter (fun c => c.2.length = listMin (cc.map (fun c => c.2.length))) with hsh
          have hcc_ne : cc ≠ [] := by
            intro h
            rw [List.isEmpty_iff] at hcc
            exact hcc (h ▸ rfl)
          have hsh_ne : sh ≠ [] := by
            have := listMin_attained (cc.map (fun c => c.2.length)) (by simp [hcc_ne])
            obtain ⟨c, hcm, hcl⟩ := List.mem_map.mp this
            intro h
            have : c ∈ sh := List.mem_filter.mpr ⟨hcm, by simp [hcl]⟩
            rw [h] at this
            simp at this
          have hmem := choiceAt_mem sh p hsh_ne
          have hin_cc : choiceAt sh p ∈ cc := (List.mem_filter.mp hmem).1
          have hin_df : choiceAt sh p ∈ df := (List.mem_filter.mp hin_cc).1
          have : 1 ≤ (choiceAt sh p).2.length := by
            have := (List.mem_filter.mp hin_df).2
            simpa using this
          simp only [List.length_append, List.length_cons, List.length_nil]
          omega
        · rw [if_neg hcc]
          set sh := df.filter (fun c => c.2.length = listMin (df.map (fun c => c.2.length))) with hsh
          have hdf_ne : df ≠ [] := by
            intro h
            rw [List.isEmpty_iff] at hdf0_ne
            exact hdf0_ne h
          have hsh_ne : sh ≠ [] := by
            have := listMin_attained (df.map (fun c => c.2.length)) (by simp [hdf_ne])
            obtain ⟨c, hcm, hcl⟩ := List.mem_map.mp this
            intro h
            have : c ∈ sh := List.mem_filter.mpr ⟨hcm, by simp [hcl]⟩
            rw [h] at this
            simp at this
          have hmem := choiceAt_mem sh p hsh_ne
          have hin_df : choiceAt sh p ∈ df := (List.mem_filter.mp hmem).1
          have : 1 ≤ (choiceAt sh p).2.length := by
            have := (List.mem_filter.mp hin_df).2
            simpa using this
          simp only [List.length_append, List.length_cons, List.length_nil]
          omega
      · intro hx hcontent
        obtain ⟨x, hxm, hxlen⟩ := hx
        have hdf0 : x ∈ (collectCandidates t []).filter (fun c => decide (1 ≤ c.2.length)) :=
          List.mem_filter.mpr ⟨hxm, by simpa using hxlen⟩
        have hdf0_ne : ¬ ((collectCandidates t []).filter
            (fun c => decide (1 ≤ c.2.length))).isEmpty := by
          rw [List.isEmpty_iff]
          intro h
          rw [h] at hdf0
          simp at hdf0
        rw [jumpToRandomStart]
        rw [if_neg hce]
        simp only []
        rw [if_neg hdf0_ne]
        set df := (collectCandidates t []).filter (fun c => decide (1 ≤ c.2.length)) with hdf
        set cc := df.filter (fun c => nodeHasContent c.1) with hcc_def
        have hcc : ¬ cc.isEmpty := by
          obtain ⟨y, hym, hyc⟩ := hcontent
          rw [List.isEmpty_iff]
          intro h
          have : y ∈ cc := List.mem_filter.mpr ⟨hym, hyc⟩
          rw [h] at this
          simp at this
        rw [if_pos hcc]
        set sh := cc.filter (fun c => c.2.length = listMin (cc.map (fun c => c.2.length))) with hsh
        have hcc_ne : cc ≠ [] := by
          intro h
          rw [List.isEmpty_iff] at hcc
          exact hcc (h ▸ rfl)
        have hsh_ne : sh ≠ [] := by
          have := listMin_attained (cc.map (fun c => c.2.length)) (by simp [hcc_ne])
          obtain ⟨c, hcm, hcl⟩ := List.mem_map.mp this
          intro h
          have : c ∈ sh := List.mem_filter.mpr ⟨hcm, by simp [hcl]⟩
          rw [h] at this
          simp at this
        have hmem := choiceAt_mem sh p hsh_ne
        refine ⟨choiceAt sh p, (List.mem_filter.mp hmem).1, ?_, rfl⟩
        have := (List.mem_filter.mp hmem).2
        simpa using this
  refine ⟨(main tree pick).1, (main tree pick).2, ?_⟩
  intro pk
  have ha : nodeHasContent c5A = false := rfl
  have hb : nodeHasContent c5B = true := rfl
  have hr : nodeHasContent c5Tree = false := rfl
  have h1 : collectCandidates c5Tree [] =
      [(c5Tree, []), (c5A, [c5Tree]), (c5B, [c5Tree])] := rfl
  have hch : choiceAt [(c5B, [c5Tree])] pk = (c5B, [c5Tree]) := by
    rw [choiceAt]
    simp [Nat.mod_one]
  simp [jumpToRandomStart, h1, ha, hb, hr, listMin, hch]

theorem countList_append (a b : List WebsiteNode) :
    countList (a ++ b) = countList a + countList b := by
  induction a with
  | nil => simp [countList]
  | cons x xs ih => rw [List.cons_append, countList, countList, ih]; omega

theorem attemptChild_countNodes (env : CrawlEnv) (d : Nat) (l : LinkContext) :
    countNodes (attemptChild env d l) = 1 := by
  rw [attemptChild]
  cases env.fetch l.url <;> rfl

theorem countNodes_set_children (n : WebsiteNode) (l : List WebsiteNode) :
    countNodes { n with children := l } = 1 + countList l := by
  cases n
  rfl

theorem node_set_children_self (n : WebsiteNode) :
    ({ n with children := n.children }) = n := by
  cases n
  rfl

theorem mem_preorderList_of_mem {c : WebsiteNode} {l : List WebsiteNode}
    (h : c ∈ l) : c ∈ preorderList l := by
  induction l with
  | nil => simp at h
  | cons x xs ih =>
    rw [preorderList]
    rcases List.mem_cons.mp h with h | h
    · subst h
      apply List.mem_append_left
      rw [preorderNodes_eq]
      simp
    · exact List.mem_append_right _ (ih h)

theorem preorder_subset_of_mem {x : WebsiteNode} {l : List WebsiteNode}
    (h : x ∈ l) : ∀ y ∈ preorderNodes x, y ∈ preorderList l := by
  induction l with
  | nil => simp at h
  | cons z zs ih =>
    intro y hy
    rw [preorderList]
    rcases List.mem_cons.mp h with h | h
    · subst h
      exact List.mem_append_left _ hy
    · exact List.mem_append_right _ (ih h y hy)

/-- An error leaf as produced by a failed child fetch: not crawled, no
children, no cached links. -/
def isErrorLeaf (c : WebsiteNode) : Prop :=
  c.crawled = false ∧ c.children = [] ∧ c.link_contexts = []

theorem expandDepthGo_errorLeaf (env : CrawlEnv) (maxD maxC : Nat) :
    ∀ (fuel : Nat) (c : WebsiteNode) (visited : List String),
      isErrorLeaf c →
      expandDepthGo env maxD maxC fuel c visited = (c, visited, [], []) := by
  intro fuel c visited hleaf
  obtain ⟨hcr, hch, hlc⟩ := hleaf
  obtain ⟨u, d, t, de, co, cr, dp, ch, lc, er, rc⟩ := c
  simp only at hcr hch hlc
  subst hcr
  subst hch
  subst hlc
  cases fuel with
  | zero => rw [expandDepthGo]
  | succ f =>
    rw [expandDepthGo]
    by_cases hd : maxD ≤ dp
    · rw [if_pos hd]
    · rw [if_neg hd]
      simp [expandDepthTopUp, expandDepthRefresh, expandDepthKids]

theorem expandDepthKids_keeps_errorLeaf (env : CrawlEnv) (maxD maxC : Nat) :
    ∀ (fuel : Nat) (l : List WebsiteNode) (visited : List String) (c : WebsiteNode),
      c ∈ l → isErrorLeaf c →
      c ∈ (expandDepthKids env maxD maxC fuel l visited).1 := by
  intro fuel l
  induction l with
  | nil => intro visited c hm _; simp at hm
  | cons x xs ih =>
    intro visited c hm hleaf
    rw [expandDepthKids]
    simp only []
    rcases List.mem_cons.mp hm with h | h
    · subst h
      rw [expandDepthGo_errorLeaf env maxD maxC fuel c visited hleaf]
      simp
    · exact List.mem_cons_of_mem _ (ih _ c h hleaf)

theorem countNodes_set_links (n : WebsiteNode) (l : List LinkContext) :
    countNodes { n with link_contexts := l } = countNodes n := by
  cases n
  rfl

theorem expandDepthRefresh_spec (env : CrawlEnv) (maxD : Nat) (parent : WebsiteNode) :
    (expandDepthRefresh env maxD parent).depth = parent.depth ∧
    (expandDepthRefresh env maxD parent).children = parent.children ∧
    countNodes (expandDepthRefresh env maxD parent) = countNodes parent := by
  rw [expandDepthRefresh]
  split
  · split
    · exact ⟨rfl, rfl, rfl⟩
    · exact ⟨rfl, rfl, countNodes_set_links parent _⟩
  · exact ⟨rfl, rfl, rfl⟩

theorem attemptChild_spec (env : CrawlEnv) (d : Nat) (l : LinkContext) :
    (attemptChild env d l).url = l.url ∧
    countNodes (attemptChild env d l) = 1 ∧
    ((attemptChild env d l).crawled = false →
      (attemptChild env d l).error.isSome = true ∧
      (attemptChild env d l).title = none ∧
      (attemptChild env d l).description = none ∧
      (attemptChild env d l).content = none ∧
      isErrorLeaf (attemptChild env d l)) := by
  rw [attemptChild]
  cases env.fetch l.url <;> simp [isErrorLeaf, countNodes, countList]

theorem countList_map_attempt (env : CrawlEnv) (d : Nat) (ls : List LinkContext) :
    countList (ls.map (attemptChild env d)) = ls.length := by
  induction ls with
  | nil => rfl
  | cons x xs ih =>
    rw [List.map_cons, countList, ih, (attemptChild_spec env d x).2.1, List.length_cons]
    omega

theorem expandDepthTopUp_spec (env : CrawlEnv) (maxD maxC : Nat)
    (parent : WebsiteNode) (visited : List String) :
    countNodes (expandDepthTopUp env maxD maxC parent visited).1 =
      countNodes parent + (expandDepthTopUp env maxD maxC parent visited).2.2.2.length ∧
    (∀ c ∈ (expandDepthTopUp env maxD maxC parent visited).2.2.2,
      c ∈ (expandDepthTopUp env maxD maxC parent visited).1.children ∧
      c.url ∈ (expandDepthTopUp env maxD maxC parent visited).2.2.1 ∧
      (c.crawled = false →
        c.error.isSome = true ∧ c.title = none ∧ c.description = none ∧
        c.content = none ∧ isErrorLeaf c)) := by
  obtain ⟨hdep, hch, hcount⟩ := expandDepthRefresh_spec env maxD parent
  rw [expandDepthTopUp]
  simp only []
  split
  · exact ⟨by rw [hcount]; rfl, by intro c hc; simp at hc⟩
  · split
    · have hw := widthLoop_spec env (expandDepthRefresh env maxD parent).depth
        (((expandDepthRefresh env maxD parent).link_contexts.filter
          (fun l => !((parent.children.map (fun c => c.url)).contains l.url))).take
          (maxC - (expandDepthRefresh env maxD parent).children.length)) visited
      constructor
      · simp only [countNodes_set_children, hw.1, countList_append,
          countList_map_attempt, List.length_map]
        have e1 := countNodes_eq (expandDepthRefresh env maxD parent)
        omega
      · intro c hc
        simp only at hc
        rw [hw.1] at hc
        obtain ⟨lx, hlx, hceq⟩ := List.mem_map.mp hc
        refine ⟨?_, ?_, ?_⟩
        · simp only
          rw [hw.1]
          exact List.mem_append_right _ hc
        · simp only
          rw [hw.2]
          rw [← hceq, (attemptChild_spec env _ lx).1]
          exact List.mem_map.mpr ⟨lx, hlx, rfl⟩
        · intro hcr
          rw [← hceq] at hcr ⊢
          exact (attemptChild_spec env _ lx).2.2 hcr
    · exact ⟨by rw [hcount]; rfl, by intro c hc; simp at hc⟩

theorem expandDepthGo_inv (env : CrawlEnv) (maxD maxC : Nat) :
    ∀ fuel : Nat, ∀ (parent : WebsiteNode) (visited : List String),
      countNodes (expandDepthGo env maxD maxC fuel parent visited).1 =
        countNodes parent +
          (expandDepthGo env maxD maxC fuel parent visited).2.2.2.length ∧
      ∀ c ∈ (expandDepthGo env maxD maxC fuel parent visited).2.2.2,
        c.url ∈ (expandDepthGo env maxD maxC fuel parent visited).2.2.1 ∧
        (c.crawled = false →
          c.error.isSome = true ∧ c.title = none ∧ c.description = none ∧
          c.content = none ∧
          c ∈ preorderNodes (expandDepthGo env maxD maxC fuel parent visited).1) := by
  intro fuel
  induction fuel with
  | zero =>
    intro parent visited
    rw [expandDepthGo]
    exact ⟨by simp, by intro c hc; simp at hc⟩
  | succ f ih =>
    have kids : ∀ (l : List WebsiteNode) (visited : List String),
        countList (expandDepthKids env maxD maxC f l visited).1 =
          countList l + (expandDepthKids env maxD maxC f l visited).2.2.2.length ∧
        ∀ c ∈ (expandDepthKids env maxD maxC f l visited).2.2.2,
          c.url ∈ (expandDepthKids env maxD maxC f l visited).2.2.1 ∧
          (c.crawled = false →
            c.error.isSome = true ∧ c.title = none ∧ c.description = none ∧
            c.content = none ∧
            c ∈ preorderList (expandDepthKids env maxD maxC f l visited).1) := by
      intro l
      induction l with
      | nil =>
        intro visited
        rw [expandDepthKids]
        exact ⟨by simp [countList], by intro c hc; simp at hc⟩
      | cons x xs ihl =>
        intro visited
        rw [expandDepthKids]
        simp only []
        have h1 := ih x visited
        have h2 := ihl (expandDepthGo env maxD maxC f x visited).2.1
        constructor
        · rw [countList, countList]
          have := h1.1
          have := h2.1
          simp only [List.length_append]
          omega
        · intro c hc
          rcases List.mem_append.mp hc with hcm | hcm
          · obtain ⟨hurl, hfail⟩ := h1.2 c hcm
            refine ⟨List.mem_append_left _ hurl, fun hcr => ?_⟩
            obtain ⟨he, ht, hde, hco, hpre⟩ := hfail hcr
            refine ⟨he, ht, hde, hco, ?_⟩
            rw [preorderList]
            exact List.mem_append_left _ hpre
          · obtain ⟨hurl, hfail⟩ := h2.2 c hcm
            refine ⟨List.mem_append_right _ hurl, fun hcr => ?_⟩
            obtain ⟨he, ht, hde, hco, hpre⟩ := hfail hcr
            refine ⟨he, ht, hde, hco, ?_⟩
            rw [preorderList]
            exact List.mem_append_right _ hpre
    intro parent visited
    rw [expandDepthGo]
    by_cases hd : maxD ≤ parent.depth
    · rw [if_pos hd]
      exact ⟨by simp, by intro c hc; simp at hc⟩
    · rw [if_neg hd]
      simp only []
      have ht := expandDepthTopUp_spec env maxD maxC parent visited
      have hk := kids (expandDepthTopUp env maxD maxC parent visited).1.children
        (expandDepthTopUp env maxD maxC parent visited).2.1
      constructor
      · rw [countNodes_set_children]
        have e1 := countNodes_eq (expandDepthTopUp env maxD maxC parent visited).1
        have := ht.1
        have := hk.1
        simp only [List.length_append]
        omega
      · intro c hc
        rcases List.mem_append.mp hc with hcm | hcm
        · obtain ⟨hmem, hurl, hfail⟩ := ht.2 c hcm
          refine ⟨List.mem_append_left _ hurl, fun hcr => ?_⟩
          obtain ⟨he, hti, hde, hco, hleaf⟩ := hfail hcr
          refine ⟨he, hti, hde, hco, ?_⟩
          have hin := expandDepthKids_keeps_errorLeaf env maxD maxC f
            (expandDepthTopUp env maxD maxC parent visited).1.children
            (expandDepthTopUp env maxD maxC parent visited).2.1 c hmem hleaf
          rw [preorderNodes_eq]
          exact List.mem_cons_of_mem _ (mem_preorderList_of_mem hin)
        · obtain ⟨hurl, hfail⟩ := hk.2 c hcm
          refine ⟨List.mem_append_right _ hurl, fun hcr => ?_⟩
          obtain ⟨he, hti, hde, hco, hpre⟩ := hfail hcr
          refine ⟨he, hti, hde, hco, ?_⟩
          rw [preorderNodes_eq]
          exact List.mem_cons_of_mem _ hpre

/-- C10: in both expand_width and the recursive loop of expand_depth,
every selected link produces an appended child even when its fetch fails:
the failed child is kept as an error leaf (crawled false, error set, no
title, description or content) inside the expanded subtree, its URL is in
the returned set of new URLs, and it is counted in the returned added
count, which therefore measures attempted children, not successfully
crawled ones. -/
theorem expand_attempted_children_spec (env : CrawlEnv) :
    (∀ (node : WebsiteNode) (k : Nat) (visited : List String),
      node.crawled = true →
      (expandWidth env node k visited).2.1 = ((eligibleLinks node).take k).length ∧
      ∀ l ∈ (eligibleLinks node).take k,
        attemptChild env node.depth l ∈ (expandWidth env node k visited).1.children ∧
        l.url ∈ (expandWidth env node k visited).2.2.1 ∧
        ((attemptChild env node.depth l).crawled = false →
          (attemptChild env node.depth l).error.isSome = true ∧
          (attemptChild env node.depth l).title = none ∧
          (attemptChild env node.depth l).description = none ∧
          (attemptChild env node.depth l).content = none)) ∧
    (∀ (node : WebsiteNode) (ad mc fuel : Nat) (visited : List String),
      (expandDepth env node ad mc fuel visited).2.1 =
        (expandDepth env node ad mc fuel visited).2.2.2.2.length ∧
      ∀ c ∈ (expandDepth env node ad mc fuel visited).2.2.2.2,
        c.url ∈ (expandDepth env node ad mc fuel visited).2.2.1 ∧
        (c.crawled = false →
          c.error.isSome = true ∧ c.title = none ∧ c.description = none ∧
          c.content = none ∧
          c ∈ preorderNodes (expandDepth env node ad mc fuel visited).1)) := by
  constructor
  · intro node k visited hc
    rw [expandWidth.eq_def, if_neg (by rw [hc]; simp)]
    by_cases he : (eligibleLinks node).isEmpty
    · rw [if_pos he]
      rw [List.isEmpty_iff] at he
      rw [he]
      exact ⟨by simp, by intro l hl; simp at hl⟩
    · rw [if_neg he]
      simp only []
      have hw := widthLoop_spec env node.depth ((eligibleLinks node).take k) visited
      refine ⟨by rw [hw.1]; simp, ?_⟩
      intro l hl
      refine ⟨?_, ?_, fun hcr => (attemptChild_spec env node.depth l).2.2 hcr |>.1
        |> fun he1 => ⟨he1, ((attemptChild_spec env node.depth l).2.2 hcr).2.1,
          ((attemptChild_spec env node.depth l).2.2 hcr).2.2.1,
          ((attemptChild_spec env node.depth l).2.2 hcr).2.2.2.1⟩⟩
      · rw [hw.1]
        exact List.mem_append_right _ (List.mem_map.mpr ⟨l, hl, rfl⟩)
      · rw [hw.2]
        exact List.mem_map.mpr ⟨l, hl, rfl⟩
  · intro node ad mc fuel visited
    rw [expandDepth.eq_def]
    by_cases hc : node.crawled = false
    · rw [if_pos hc]
      exact ⟨rfl, by intro c hcm; simp at hcm⟩
    · rw [if_neg hc]
      simp only []
      have hi := expandDepthGo_inv env (findMaxDepth node + ad) mc fuel node visited
      refine ⟨?_, hi.2⟩
      rw [hi.1]
      omega

theorem autoExpandTree_false_currentNode (outcome : Option (Nat × WebsiteNode))
    (ft : String) (st : NavState) :
    (autoExpandTree outcome ft st).1 = false →
    (autoExpandTree outcome ft st).2.currentNode = st.currentNode := by
  rw [autoExpandTree.eq_def]
  simp only []
  split
  · exact fun _ => rfl
  · split
    · exact fun _ => rfl
    · split
      · exact fun _ => rfl
      · split
        · rw [autoExpandFinish]
          simp only []
          split
          · intro h
            exact absurd h (by simp)
          · exact fun _ => rfl
        · exact fun _ => rfl

theorem choiceNode_mem (l : List WebsiteNode) (pick : Nat) (dflt : WebsiteNode)
    (h : l ≠ []) : choiceNode l pick dflt ∈ l := by
  rw [choiceNode]
  have hl : 0 < l.length := List.length_pos.mpr h
  have hm : pick % l.length < l.length := Nat.mod_lt _ hl
  rw [List.getD_eq_getElem l dflt hm]
  exact List.getElem_mem hm

theorem advanceBase_mem_children (outcome : Option (Nat × WebsiteNode)) (st : NavState) :
    ∀ x ∈ (advanceBase outcome st).1, x ∈ (advanceBase outcome st).2.currentNode.children := by
  rw [advanceBase]
  by_cases hv : (validChildren 20 st.currentNode).isEmpty
  · rw [if_pos hv]
    split
    · intro x hx
      rw [validChildren] at hx
      exact List.mem_of_mem_filter hx
    · intro x hx
      rw [List.isEmpty_iff] at hv
      rw [hv] at hx
      exact absurd hx (List.not_mem_nil x)
  · rw [if_neg hv]
    intro x hx
    rw [validChildren] at hx
    exact List.mem_of_mem_filter hx

/-- C2: amended.  On success advance_tree appends exactly one element to
the path stack of the state as it stands AFTER the optional mid-call depth
auto-expansion, the appended node being a qualifying child of that state's
current node; on failure it returns that post-expansion state itself.
The literal claim fails because a successful expansion followed by a
failing 50-character re-filter returns failure with a path stack that the
expansion already rebuilt from the reloaded tree. -/
theorem advanceTree_amended (outcome : Option (Nat × WebsiteNode)) (pick : Nat)
    (st : NavState) :
    ((advanceTree outcome pick st).1 = false →
      (advanceTree outcome pick st).2 = (advanceBase outcome st).2) ∧
    ((advanceTree outcome pick st).1 = true →
      (advanceTree outcome pick st).2.pathStack =
        (advanceBase outcome st).2.pathStack ++
          [(advanceTree outcome pick st).2.currentNode] ∧
      (advanceTree outcome pick st).2.currentNode ∈ (advanceBase outcome st).1 ∧
      (advanceTree outcome pick st).2.currentNode ∈
        (advanceBase outcome st).2.currentNode.children) := by
  rw [advanceTree.eq_def]
  simp only []
  by_cases he : (advanceBase outcome st).1.isEmpty
  · rw [if_pos he]
    exact ⟨fun _ => rfl, fun h => by simp at h⟩
  · rw [if_neg he]
    constructor
    · intro h
      simp at h
    · intro _
      have hpick : choiceNode (advanceBase outcome st).1 pick
          (advanceBase outcome st).2.currentNode ∈ (advanceBase outcome st).1 :=
        choiceNode_mem _ pick _ (fun hnil => he (by simp [hnil]))
      exact ⟨rfl, hpick, advanceBase_mem_children outcome st _ hpick⟩

def c2A : WebsiteNode := mkLeaf "http://a2.example" none

/-- Concrete old tree for the C2 counterexample. -/
def c2Tree : WebsiteNode :=
  { url := "http://r2.example", domain := "example.com", crawled := true,
    children := [c2A] }

/-- Concrete node added by the mid-call expansion: its content passes the
20-character filter but not the relaxed 50-character re-filter. -/
def c2C : WebsiteNode := mkLeaf "http://c2.example" (some "twenty-two characters ok")

/-- The reloaded form of the old current node after expansion. -/
def c2NewA : WebsiteNode :=
  { url := "http://a2.example", domain := "example.com", crawled := true,
    children := [c2C] }

/-- The reloaded tree after expansion in the C2 counterexample. -/
def c2NewTree : WebsiteNode :=
  { url := "http://r2.example", domain := "example.com", crawled := true,
    children := [c2NewA] }

/-- Concrete controller state for the C2 counterexample. -/
def c2State : NavState :=
  { tree := c2Tree, pathStack := [c2Tree, c2A], currentNode := c2A,
    difficulty := 2, historySnapshots := [], convA := [], convB := [] }

/-- Counterexample to the literal C2: a leaf current node triggers the
mid-call depth expansion, the expansion succeeds and rebuilds the path
stack from the reloaded tree, yet the relaxed 50-character re-filter still
finds no qualifying child, so advance_tree returns failure with a path
stack that differs from the one before the call. -/
theorem advanceTree_failure_mutates :
    (advanceTree (some (1, c2NewTree)) 0 c2State).1 = false ∧
    (advanceTree (some (1, c2NewTree)) 0 c2State).2.pathStack ≠ c2State.pathStack := by
  refine ⟨rfl, fun h => ?_⟩
  exact absurd (congrArg (fun l => ((l.getLastD c2Tree).children).length) h) (by decide)
